import Mathlib

/-!
Verification of the acquisition-function optimization engine described by the
repository specification (tutorials/compare_mc_analytic_acquisition.ipynb and
spec.md). The notebook only calls into the botorch library; the library
functions themselves (ExpectedImprovement, qExpectedImprovement,
SobolQMCNormalSampler, gen_candidates_torch, get_best_candidates) are not part
of the source tree, so each is modelled here from the specification text and
the way the notebook uses it. Real-valued quantities are embedded as `ℝ` where
the mathematics requires it (the analytic Gaussian formula) and as `ℚ` where
executability matters (samplers, optimizers, selector).
-/

open MeasureTheory Real Set Filter List Topology

/-- Modelled from the spec: the standard normal density φ used by the Analytic
Expected Improvement formula (spec §4.2). The implementing code
(botorch.acquisition.ExpectedImprovement) is not under src/. -/
noncomputable def normalPdf (z : ℝ) : ℝ :=
  (Real.sqrt (2 * Real.pi))⁻¹ * Real.exp (-z ^ 2 / 2)

/-- Modelled from the spec: the standard normal cumulative distribution Φ
(spec §4.2), the integral of the density over all values up to `z`. -/
noncomputable def normalCdf (z : ℝ) : ℝ :=
  ∫ t in Iic z, normalPdf t

/-- Modelled from the spec: Analytic Expected Improvement (spec §4.2), the
closed-form utility EI = σ·φ(z) + (μ − best_f)·Φ(z) with z = (μ − best_f)/σ,
clamped to 0 when the predictive standard deviation σ is zero (spec §4.2, §7:
zero predictive variance returns zero utility, not an error). The implementing
code (botorch.acquisition.ExpectedImprovement) is not under src/. -/
noncomputable def ExpectedImprovement (μ σ best_f : ℝ) : ℝ :=
  if σ = 0 then 0
  else σ * normalPdf ((μ - best_f) / σ) + (μ - best_f) * normalCdf ((μ - best_f) / σ)

/-- Modelled from the spec: the per-draw improvement used by the Monte Carlo
q-Expected-Improvement (spec §4.4) — the best improvement
max(sample_j − best_f, 0) across the q candidates of one joint posterior draw.
The implementing code (botorch.acquisition.qExpectedImprovement) is not under
src/. -/
def drawImprovement (best_f : ℚ) (s : List ℚ) : ℚ :=
  (s.map (fun x => max (x - best_f) 0)).foldr max 0

/-- Modelled from the spec: the Monte Carlo qEI utility (spec §4.4) — the
average of per-draw improvements over all draws; each element of `draws` is
the joint posterior sample vector (length q) of one Monte Carlo draw. -/
def qExpectedImprovement (best_f : ℚ) (draws : List (List ℚ)) : ℚ :=
  ((draws.map (drawImprovement best_f)).sum) / (draws.length : ℚ)

/-- Largest entry of a sample vector (`0` for the empty vector, which cannot
arise since a candidate holds q ≥ 1 points). -/
def maxSample : List ℚ → ℚ
  | [] => 0
  | x :: xs => xs.foldr max x

/-- Modelled from the spec: SamplerState (spec §3) for the quasi-Monte-Carlo
normal sampler — a seed, a sample count, and a resample flag. The implementing
code (botorch.sampling.SobolQMCNormalSampler) is not under src/. -/
structure SobolQMCNormalSampler where
  seed : Nat
  num_samples : Nat
  resample : Bool
deriving DecidableEq

/-- One step of a 64-bit linear congruential generator, a concrete
deterministic stand-in for the low-discrepancy base sequence (spec §4.3 pins
only that the base draws are a deterministic function of seed and count). -/
def lcgNext (s : Nat) : Nat :=
  (6364136223846793005 * s + 1442695040888963407) % 2 ^ 64

/-- The generator state after `n + 1` steps from `seed`. -/
def lcgIter (seed : Nat) : Nat → Nat
  | 0 => lcgNext (seed % 2 ^ 64)
  | n + 1 => lcgNext (lcgIter seed n)

/-- Modelled from the spec: the base sample set of a given seed and count
(spec §4.3) — a fixed-size deterministic set of draws. -/
def baseSampleSet (seed n : Nat) : List Nat :=
  (List.range n).map (lcgIter seed)

/-- Modelled from the spec: one draw call of the sampler (spec §3, §4.3).
`call` is the index of the call in program order. With `resample = false` the
same base sample set is reused for every utility evaluation; with
`resample = true` fresh draws are produced per call. -/
def drawSamples (s : SobolQMCNormalSampler) (call : Nat) : List Nat :=
  if s.resample then baseSampleSet (s.seed + (call + 1) * s.num_samples) s.num_samples
  else baseSampleSet s.seed s.num_samples

/-- Clamp of one coordinate onto the interval from `lo` to `hi`. -/
def clampCoord (lo hi x : ℚ) : ℚ := min (max x lo) hi

/-- Modelled from the spec: one iteration of the torch-based optimizer on the
whole restart batch (spec §4.7 and gen_candidates_torch in the notebook) — an
update-rule step (`upd` abstracts the Adam or SGD update) followed by
projecting every coordinate of every candidate back onto the box bounds. The
implementing code (botorch.gen.gen_candidates_torch) is not under src/. -/
def torchStep {r q d : Nat} (lo hi : Fin d → ℚ)
    (upd : (Fin r → Fin q → Fin d → ℚ) → Fin r → Fin q → Fin d → ℚ)
    (X : Fin r → Fin q → Fin d → ℚ) : Fin r → Fin q → Fin d → ℚ :=
  fun a j i => clampCoord (lo i) (hi i) (upd X a j i)

/-- Modelled from the spec: the Stochastic Gradient Optimizer loop (spec §4.7)
— a fixed number of update steps with no convergence test. Returns the final
state together with the number of iterations executed. -/
def sgdRun {α : Type} (step : α → α) : Nat → α → α × Nat
  | 0, x => (x, 0)
  | n + 1, x =>
    let rest := sgdRun step n (step x)
    (rest.1, rest.2 + 1)

/-- Modelled from the spec: the Bounded Quasi-Newton Optimizer loop
(spec §4.6) — iterates until the convergence criterion (a fixed point of the
step, i.e. vanishing projected gradient) or the iteration budget is reached.
Returns the final state and the number of iterations executed. -/
def qnRun {α : Type} [DecidableEq α] (step : α → α) : Nat → α → α × Nat
  | 0, x => (x, 0)
  | n + 1, x =>
    if step x = x then (x, 0)
    else
      let rest := qnRun step n (step x)
      (rest.1, rest.2 + 1)

/-- Modelled from the spec: the Monte Carlo utility of a scalar candidate `x`
at sampler call `call` (spec §4.4, §9): the sampler's base draws are
reparameterized through the posterior at `x` (modelled as location shift) and
fed to the qEI estimator. -/
def mcUtility (best_f : ℚ) (s : SobolQMCNormalSampler) (call : Nat) (x : ℚ) : ℚ :=
  qExpectedImprovement best_f
    ((drawSamples s call).map (fun v => [x + (v : ℚ) / 2 ^ 64]))

/-- Modelled from the spec: one quasi-Newton step on a scalar candidate
(spec §4.6) — a finite-difference ascent step on the Monte Carlo utility,
projected onto the bounds. -/
def qnMcStep (best_f lo hi : ℚ) (s : SobolQMCNormalSampler) (call : Nat) (x : ℚ) : ℚ :=
  clampCoord lo hi
    (x + (mcUtility best_f s call (x + 1 / 1000) - mcUtility best_f s call x))

/-- Modelled from the spec: a quasi-Newton local search of `n` iterations from
start `x`, consuming one sampler call per iteration starting at index `call`,
with early return at a fixed point of the step (spec §4.6). -/
def qnMcLoop (best_f lo hi : ℚ) (s : SobolQMCNormalSampler) : Nat → ℚ → Nat → ℚ
  | 0, x, _ => x
  | n + 1, x, call =>
    let x2 := qnMcStep best_f lo hi s call x
    if x2 = x then x else qnMcLoop best_f lo hi s n x2 (call + 1)

/-- Modelled from the spec: first-index argmax over (candidate, value) pairs —
the Best-Candidate Selector core (spec §4.8): the pair with the maximum value,
the earlier pair winning exact ties. The implementing code
(botorch.gen.get_best_candidates) is not under src/. -/
def bestPair {α : Type} : List (α × ℚ) → Option (α × ℚ)
  | [] => none
  | p :: rest =>
    some (match bestPair rest with
      | none => p
      | some m => if p.2 < m.2 then m else p)

/-- Modelled from the spec: get_best_candidates (spec §4.8) — returns the
candidate with the maximum utility value together with that value, pairing
candidates with their per-restart values positionally. -/
def get_best_candidates {α : Type} (batch_candidates : List α)
    (batch_values : List ℚ) : Option (α × ℚ) :=
  bestPair (batch_candidates.zip batch_values)

/-- Modelled from the spec: the full quasi-Newton multi-start optimization of
the Monte Carlo utility (optimize_acqf with the quasi-Newton path, spec §2,
§4.6, §4.8): refine every restart, evaluate the final utilities, and select
the best candidate. `startCall` is the sampler call index at which this run
begins (an independent later run of the same program starts at a later call
index of the ambient random stream). -/
def optimize_acqf_qn (best_f lo hi : ℚ) (s : SobolQMCNormalSampler)
    (iters : Nat) (starts : List ℚ) (startCall : Nat) : Option (ℚ × ℚ) :=
  let finals := starts.map (fun x0 => qnMcLoop best_f lo hi s iters x0 startCall)
  let vals := finals.map (mcUtility best_f s (startCall + iters))
  bestPair (finals.zip vals)

/-- A heap of tensor values, locating each stored restart batch by address:
the explicit-state model of the notebook's tensor objects. -/
def Heap (β : Type) : Type := Nat → β

/-- Write one location of a heap. -/
def heapWrite {β : Type} (h : Heap β) (l : Nat) (v : β) : Heap β :=
  fun l2 => if l2 = l then v else h l2

/-- Modelled from the spec: gen_candidates_torch as the notebook uses it
(cells with the Adam and SGD runs): it reads the initial conditions stored at
`initLoc`, optimizes a private working copy (the in-place mutation of spec §3
applies to that copy), stores the optimized batch at the fresh address
`outLoc`, and returns the new heap, the optimized batch, and the starting
candidates it observed. The implementing code (botorch.gen) is not under
src/. -/
def gen_candidates_torch {r q d : Nat} (h : Heap (Fin r → Fin q → Fin d → ℚ))
    (initLoc outLoc : Nat) (lo hi : Fin d → ℚ)
    (upd : (Fin r → Fin q → Fin d → ℚ) → Fin r → Fin q → Fin d → ℚ)
    (iters : Nat) :
    Heap (Fin r → Fin q → Fin d → ℚ) × (Fin r → Fin q → Fin d → ℚ)
      × (Fin r → Fin q → Fin d → ℚ) :=
  let start := h initLoc
  let final := (torchStep lo hi upd)^[iters] start
  (heapWrite h outLoc final, final, start)

/- ------------------------------------------------------------------ -/
/- Helper lemmas                                                       -/
/- ------------------------------------------------------------------ -/

theorem drawSamples_fixed (s : SobolQMCNormalSampler) (h : s.resample = false)
    (i j : Nat) : drawSamples s i = drawSamples s j := by
  simp [drawSamples, h]

/- ------------------------------------------------------------------ -/
/- C6: sampler idempotence in fixed mode                               -/
/- ------------------------------------------------------------------ -/

/-- C6: with resample = false, the sampler is idempotent — every draw call,
whatever its index in program order, returns the identical sample set of the
configured seed and count. -/
theorem sampler_fixed_mode_idempotent (s : SobolQMCNormalSampler)
    (h : s.resample = false) (i j : Nat) :
    drawSamples s i = drawSamples s j ∧
      drawSamples s i = baseSampleSet s.seed s.num_samples := by
  constructor
  · simp [drawSamples, h]
  · simp [drawSamples, h]

/-- Witness for C6 at a concrete sampler and two distinct call indices. -/
theorem sampler_fixed_mode_idempotent_witness :
    (SobolQMCNormalSampler.mk 0 3 false).resample = false ∧
      (drawSamples ⟨0, 3, false⟩ 0 = drawSamples ⟨0, 3, false⟩ 7 ∧
        drawSamples ⟨0, 3, false⟩ 0 = baseSampleSet 0 3) :=
  ⟨rfl, sampler_fixed_mode_idempotent ⟨0, 3, false⟩ rfl 0 7⟩

theorem foldr_max_swap (x y : ℚ) (l : List ℚ) :
    List.foldr max x (y :: l) = max x (List.foldr max y l) := by
  induction l generalizing x y with
  | nil => exact max_comm y x
  | cons z zs ih =>
    have h1 : List.foldr max x (z :: zs) = max x (List.foldr max z zs) := ih x z
    have h2 : List.foldr max y (z :: zs) = max y (List.foldr max z zs) := ih y z
    show max y (List.foldr max x (z :: zs)) = max x (List.foldr max y (z :: zs))
    rw [h1, h2]
    exact max_left_comm y x (List.foldr max z zs)

theorem max_zero_merge (p q : ℚ) : max (max p 0) (max 0 q) = max 0 (max p q) := by
  rw [max_comm (0 : ℚ) q, max_max_max_comm, max_self, max_comm (max p q) 0]

theorem drawImprovement_eq (b : ℚ) (x : ℚ) (xs : List ℚ) :
    drawImprovement b (x :: xs) = max 0 (maxSample (x :: xs) - b) := by
  induction xs generalizing x with
  | nil =>
    simp [drawImprovement, maxSample, max_comm]
  | cons y ys ih =>
    have hstep : drawImprovement b (x :: y :: ys) =
        max (max (x - b) 0) (drawImprovement b (y :: ys)) := rfl
    rw [hstep, ih y]
    show max (max (x - b) 0) (max 0 (maxSample (y :: ys) - b)) =
      max 0 (maxSample (x :: y :: ys) - b)
    rw [max_zero_merge]
    congr 1
    show max (x - b) (List.foldr max y ys - b) = List.foldr max x (y :: ys) - b
    rw [foldr_max_swap x y ys, max_sub_sub_right]

/- ------------------------------------------------------------------ -/
/- C4: the qEI utility formula                                         -/
/- ------------------------------------------------------------------ -/

/-- C4: for every candidate batch of q ≥ 1 points and every set of Monte Carlo
draws, the qEI utility is the average over draws of
max(0, max_j(sample_j) − best_f), the clamped best sample value of each
draw. -/
theorem qEI_is_mean_clamped_best (best_f : ℚ) (draws : List (List ℚ))
    (h : ∀ s ∈ draws, s ≠ []) :
    qExpectedImprovement best_f draws =
      ((draws.map (fun s => max 0 (maxSample s - best_f))).sum) /
        (draws.length : ℚ) := by
  unfold qExpectedImprovement
  congr 2
  refine List.map_congr_left ?_
  intro s hs
  cases s with
  | nil => exact absurd rfl (h [] hs)
  | cons x xs => exact drawImprovement_eq best_f x xs

/-- Witness for C4 at concrete draws of a 2-point batch. -/
theorem qEI_is_mean_clamped_best_witness :
    (∀ s ∈ [[(1 : ℚ), 2], [3, 0]], s ≠ []) ∧
      qExpectedImprovement 1 [[(1 : ℚ), 2], [3, 0]] =
        (([[(1 : ℚ), 2], [3, 0]].map (fun s => max 0 (maxSample s - 1))).sum) /
          (([[(1 : ℚ), 2], [3, 0]] : List (List ℚ)).length : ℚ) :=
  ⟨by decide, qEI_is_mean_clamped_best 1 [[(1 : ℚ), 2], [3, 0]] (by decide)⟩

/- ------------------------------------------------------------------ -/
/- C5: optimizer iterates stay within bounds                           -/
/- ------------------------------------------------------------------ -/

/-- C5: for every optimizer update rule, every restart, and every iteration
count k ≥ 1, each coordinate of each candidate of the restart batch lies
between the lower and the upper bound after the k-th optimizer step. -/
theorem torch_iterates_within_bounds {r q d : Nat} (lo hi : Fin d → ℚ)
    (upd : (Fin r → Fin q → Fin d → ℚ) → Fin r → Fin q → Fin d → ℚ)
    (X0 : Fin r → Fin q → Fin d → ℚ)
    (hb : ∀ i, lo i ≤ hi i) (k : Nat) (hk : 0 < k) :
    ∀ (a : Fin r) (j : Fin q) (i : Fin d),
      lo i ≤ ((torchStep lo hi upd)^[k] X0) a j i ∧
        ((torchStep lo hi upd)^[k] X0) a j i ≤ hi i := by
  obtain ⟨m, rfl⟩ := Nat.exists_eq_succ_of_ne_zero (Nat.pos_iff_ne_zero.mp hk)
  intro a j i
  rw [Function.iterate_succ_apply']
  unfold torchStep clampCoord
  exact ⟨le_min (le_max_right _ _) (hb i), min_le_right _ _⟩

/-- Witness for C5: one step of a bound-violating update on a concrete batch
stays inside the unit box. -/
theorem torch_iterates_within_bounds_witness :
    (∀ i : Fin 1, (fun _ : Fin 1 => (0 : ℚ)) i ≤ (fun _ : Fin 1 => (1 : ℚ)) i) ∧
      0 < 1 ∧
      ∀ (a j i : Fin 1),
        (fun _ : Fin 1 => (0 : ℚ)) i ≤
            ((torchStep (fun _ : Fin 1 => (0 : ℚ)) (fun _ : Fin 1 => (1 : ℚ))
                (fun X a j i => X a j i + 5))^[1]
              (fun _ _ _ => 0)) a j i ∧
          ((torchStep (fun _ : Fin 1 => (0 : ℚ)) (fun _ : Fin 1 => (1 : ℚ))
                (fun X a j i => X a j i + 5))^[1]
              (fun _ _ _ => 0)) a j i ≤ (fun _ : Fin 1 => (1 : ℚ)) i :=
  ⟨fun _ => by norm_num, Nat.one_pos,
    torch_iterates_within_bounds (fun _ : Fin 1 => (0 : ℚ)) (fun _ : Fin 1 => (1 : ℚ))
      (fun X a j i => X a j i + 5) (fun _ _ _ => 0) (fun _ => by norm_num) 1 Nat.one_pos⟩

theorem sgdRun_count {α : Type} (step : α → α) :
    ∀ (n : Nat) (x : α), (sgdRun step n x).2 = n := by
  intro n
  induction n with
  | zero => intro x; rfl
  | succ m ih => intro x; simp [sgdRun, ih]

/- ------------------------------------------------------------------ -/
/- C8: the stochastic optimizer has no convergence test                -/
/- ------------------------------------------------------------------ -/

/-- C8: the Stochastic Gradient Optimizer always executes exactly the
configured iteration budget, for every update rule, budget and start, while
the Quasi-Newton Optimizer can return before its budget on convergence. -/
theorem sgd_full_budget_qn_early_stop {α : Type} [DecidableEq α]
    (step : α → α) (n : Nat) (x : α) (hn : 0 < n) :
    (sgdRun step n x).2 = n ∧ ∃ g : α → α, ∃ y : α, (qnRun g n y).2 < n := by
  refine ⟨sgdRun_count step n x, id, x, ?_⟩
  obtain ⟨m, rfl⟩ := Nat.exists_eq_succ_of_ne_zero (Nat.pos_iff_ne_zero.mp hn)
  simp [qnRun]

/-- Witness for C8 with a concrete update rule and budget 3. -/
theorem sgd_full_budget_qn_early_stop_witness :
    0 < 3 ∧ ((sgdRun (fun t : ℚ => t + 1) 3 0).2 = 3 ∧
      ∃ g : ℚ → ℚ, ∃ y : ℚ, (qnRun g 3 y).2 < 3) :=
  ⟨Nat.succ_pos 2, sgd_full_budget_qn_early_stop (fun t : ℚ => t + 1) 3 0 (Nat.succ_pos 2)⟩

/- ------------------------------------------------------------------ -/
/- C7: determinism of the quasi-Newton path with fixed samples         -/
/- ------------------------------------------------------------------ -/

theorem mcUtility_fixed (best_f : ℚ) (s : SobolQMCNormalSampler)
    (h : s.resample = false) (c1 c2 : Nat) (x : ℚ) :
    mcUtility best_f s c1 x = mcUtility best_f s c2 x := by
  unfold mcUtility
  rw [drawSamples_fixed s h c1 c2]

theorem qnMcStep_fixed (best_f lo hi : ℚ) (s : SobolQMCNormalSampler)
    (h : s.resample = false) (c1 c2 : Nat) (x : ℚ) :
    qnMcStep best_f lo hi s c1 x = qnMcStep best_f lo hi s c2 x := by
  unfold qnMcStep
  rw [mcUtility_fixed best_f s h c1 c2, mcUtility_fixed best_f s h c1 c2]

theorem qnMcLoop_fixed (best_f lo hi : ℚ) (s : SobolQMCNormalSampler)
    (h : s.resample = false) :
    ∀ (n : Nat) (x : ℚ) (c1 c2 : Nat),
      qnMcLoop best_f lo hi s n x c1 = qnMcLoop best_f lo hi s n x c2 := by
  intro n
  induction n with
  | zero => intro x c1 c2; rfl
  | succ m ih =>
    intro x c1 c2
    simp only [qnMcLoop]
    rw [qnMcStep_fixed best_f lo hi s h c1 c2 x]
    by_cases hx : qnMcStep best_f lo hi s c2 x = x
    · simp [hx]
    · simp only [hx, if_false]
      exact ih _ (c1 + 1) (c2 + 1)

/-- C7: with resample = false, the outcome of the full multi-start
quasi-Newton optimization — best candidate and utility value — does not depend
on where in the ambient random stream the run starts: two independent runs of
the same configuration produce identical results. -/
theorem qn_fixed_mode_deterministic (best_f lo hi : ℚ) (s : SobolQMCNormalSampler)
    (h : s.resample = false) (iters : Nat) (starts : List ℚ) (c1 c2 : Nat) :
    optimize_acqf_qn best_f lo hi s iters starts c1 =
      optimize_acqf_qn best_f lo hi s iters starts c2 := by
  unfold optimize_acqf_qn
  have hfin : (fun x0 => qnMcLoop best_f lo hi s iters x0 c1) =
      fun x0 => qnMcLoop best_f lo hi s iters x0 c2 :=
    funext fun x0 => qnMcLoop_fixed best_f lo hi s h iters x0 c1 c2
  have hval : mcUtility best_f s (c1 + iters) = mcUtility best_f s (c2 + iters) :=
    funext fun x => mcUtility_fixed best_f s h (c1 + iters) (c2 + iters) x
  rw [hfin, hval]

/-- Witness for C7 on a concrete fixed-seed configuration: the run that starts
at call index 0 and the run that starts at call index 5 coincide. -/
theorem qn_fixed_mode_deterministic_witness :
    (SobolQMCNormalSampler.mk 0 2 false).resample = false ∧
      optimize_acqf_qn 0 0 1 ⟨0, 2, false⟩ 1 [0] 0 =
        optimize_acqf_qn 0 0 1 ⟨0, 2, false⟩ 1 [0] 5 :=
  ⟨rfl, qn_fixed_mode_deterministic 0 0 1 ⟨0, 2, false⟩ rfl 1 [0] 0 5⟩

theorem bestPair_eq_none {α : Type} (l : List (α × ℚ)) : bestPair l = none ↔ l = [] := by
  cases l with
  | nil => simp [bestPair]
  | cons p rest => simp [bestPair]

theorem bestPair_spec {α : Type} :
    ∀ (l : List (α × ℚ)) (m : α × ℚ), bestPair l = some m →
      ∃ i : Nat, l[i]? = some m ∧ (∀ p ∈ l, p.2 ≤ m.2) ∧
        ∀ j : Nat, j < i → ∀ p : α × ℚ, l[j]? = some p → p.2 < m.2 := by
  intro l
  induction l with
  | nil => intro m hm; simp [bestPair] at hm
  | cons p rest ih =>
    intro m hm
    cases hrest : bestPair rest with
    | none =>
      have hnil : rest = [] := (bestPair_eq_none rest).mp hrest
      subst hnil
      have hm2 : m = p := by
        simp only [bestPair] at hm
        exact (Option.some.inj hm).symm
      subst hm2
      refine ⟨0, by simp, ?_, ?_⟩
      · intro x hx
        rcases List.mem_cons.mp hx with h0 | h0
        · rw [h0]
        · simp at h0
      · intro j hj x hx
        exact absurd hj (Nat.not_lt_zero j)
    | some b =>
      obtain ⟨i, hgi, hub, hfirst⟩ := ih b hrest
      simp only [bestPair, hrest] at hm
      by_cases hc : p.2 < b.2
      · rw [if_pos hc] at hm
        have hm2 : m = b := (Option.some.inj hm).symm
        subst hm2
        refine ⟨i + 1, by simpa using hgi, ?_, ?_⟩
        · intro x hx
          rcases List.mem_cons.mp hx with h0 | h0
          · rw [h0]; exact le_of_lt hc
          · exact hub x h0
        · intro j hj x hx
          cases j with
          | zero =>
            have hxp : p = x := by simpa using hx
            rw [← hxp]; exact hc
          | succ j2 =>
            have hx2 : rest[j2]? = some x := by simpa using hx
            exact hfirst j2 (Nat.lt_of_succ_lt_succ hj) x hx2
      · rw [if_neg hc] at hm
        have hm2 : m = p := (Option.some.inj hm).symm
        subst hm2
        refine ⟨0, by simp, ?_, ?_⟩
        · intro x hx
          rcases List.mem_cons.mp hx with h0 | h0
          · rw [h0]
          · exact le_trans (hub x h0) (not_lt.mp hc)
        · intro j hj x hx
          exact absurd hj (Nat.not_lt_zero j)

/- ------------------------------------------------------------------ -/
/- C9: the Best-Candidate Selector                                     -/
/- ------------------------------------------------------------------ -/

/-- C9: given the final restart batch and its per-restart utility values, the
selector returns the candidate whose value is maximal together with that
value, and on exact ties the candidate of smallest index wins: every earlier
index carries a strictly smaller value. -/
theorem get_best_candidates_first_argmax {α : Type} (cands : List α)
    (vals : List ℚ) (hlen : cands.length = vals.length) (hne : vals ≠ []) :
    ∃ (c : α) (v : ℚ) (i : Nat),
      get_best_candidates cands vals = some (c, v) ∧
        cands[i]? = some c ∧ vals[i]? = some v ∧
        (∀ w ∈ vals, w ≤ v) ∧
        (∀ j : Nat, j < i → ∀ w : ℚ, vals[j]? = some w → w < v) := by
  have hzlen : (cands.zip vals).length = vals.length := by
    rw [List.length_zip, hlen, Nat.min_self]
  have hzne : cands.zip vals ≠ [] := by
    intro h0
    apply hne
    apply List.eq_nil_of_length_eq_zero
    rw [← hzlen, h0]
    rfl
  obtain ⟨m, hm⟩ : ∃ m, bestPair (cands.zip vals) = some m := by
    cases hbp : bestPair (cands.zip vals) with
    | none => exact absurd ((bestPair_eq_none _).mp hbp) hzne
    | some m => exact ⟨m, rfl⟩
  obtain ⟨i, hgi, hub, hfirst⟩ := bestPair_spec _ m hm
  have hgi2 := List.getElem?_zip_eq_some.mp hgi
  refine ⟨m.1, m.2, i, ?_, hgi2.1, hgi2.2, ?_, ?_⟩
  · unfold get_best_candidates
    rw [hm]
  · intro w hw
    obtain ⟨j, hj⟩ := List.mem_iff_getElem?.mp hw
    have hjlt : j < vals.length := (List.getElem?_eq_some_iff.mp hj).1
    have hjc : j < cands.length := by rw [hlen]; exact hjlt
    have hcj : cands[j]? = some cands[j] := List.getElem?_eq_getElem hjc
    have hzj : (cands.zip vals)[j]? = some (cands[j], w) :=
      List.getElem?_zip_eq_some.mpr ⟨hcj, hj⟩
    exact hub _ (List.getElem?_mem hzj)
  · intro j hj w hw
    have hjc : j < cands.length := by
      rw [hlen]
      exact (List.getElem?_eq_some_iff.mp hw).1
    have hcj : cands[j]? = some cands[j] := List.getElem?_eq_getElem hjc
    have hzj : (cands.zip vals)[j]? = some (cands[j], w) :=
      List.getElem?_zip_eq_some.mpr ⟨hcj, hw⟩
    exact hfirst j hj _ hzj

/-- Witness for C9 on a concrete two-restart batch. -/
theorem get_best_candidates_first_argmax_witness :
    ([(10 : ℚ), 20].length = [(5 : ℚ), 7].length) ∧ (([(5 : ℚ), 7] : List ℚ) ≠ []) ∧
      ∃ (c v : ℚ) (i : Nat),
        get_best_candidates [(10 : ℚ), 20] [(5 : ℚ), 7] = some (c, v) ∧
          [(10 : ℚ), 20][i]? = some c ∧ [(5 : ℚ), 7][i]? = some v ∧
          (∀ w ∈ [(5 : ℚ), 7], w ≤ v) ∧
          (∀ j : Nat, j < i → ∀ w : ℚ, [(5 : ℚ), 7][j]? = some w → w < v) :=
  ⟨rfl, by decide,
    get_best_candidates_first_argmax [(10 : ℚ), 20] [(5 : ℚ), 7] rfl (by decide)⟩

/- ------------------------------------------------------------------ -/
/- C10: gen_candidates_torch does not mutate its initial conditions    -/
/- ------------------------------------------------------------------ -/

/-- C10: gen_candidates_torch leaves the restart batch it is handed intact:
after one run the heap still holds the original initial conditions at their
address, and a second run handed the same address observes exactly the
starting candidates the first run observed. -/
theorem gen_candidates_torch_frame {r q d : Nat}
    (h : Heap (Fin r → Fin q → Fin d → ℚ)) (initLoc out1 out2 : Nat)
    (lo hi : Fin d → ℚ)
    (upd1 upd2 : (Fin r → Fin q → Fin d → ℚ) → Fin r → Fin q → Fin d → ℚ)
    (n1 n2 : Nat) (hfresh : out1 ≠ initLoc) :
    (gen_candidates_torch h initLoc out1 lo hi upd1 n1).1 initLoc = h initLoc ∧
      (gen_candidates_torch (gen_candidates_torch h initLoc out1 lo hi upd1 n1).1
          initLoc out2 lo hi upd2 n2).2.2 =
        (gen_candidates_torch h initLoc out1 lo hi upd1 n1).2.2 := by
  have hkeep : (gen_candidates_torch h initLoc out1 lo hi upd1 n1).1 initLoc = h initLoc := by
    show heapWrite h out1 _ initLoc = h initLoc
    unfold heapWrite
    rw [if_neg (fun hEq => hfresh hEq.symm)]
  constructor
  · exact hkeep
  · show (gen_candidates_torch h initLoc out1 lo hi upd1 n1).1 initLoc = h initLoc
    exact hkeep

/-- Witness for C10 on a concrete one-point batch in one dimension. -/
theorem gen_candidates_torch_frame_witness :
    (1 ≠ 0) ∧
      ((@gen_candidates_torch 1 1 1 (fun _ => fun _ _ _ => (1 : ℚ) / 2) 0 1
            (fun _ => 0) (fun _ => 1) (fun X => X) 2).1 0 =
          (fun _ => fun _ _ _ => (1 : ℚ) / 2 : Heap (Fin 1 → Fin 1 → Fin 1 → ℚ)) 0 ∧
        (@gen_candidates_torch 1 1 1
            (@gen_candidates_torch 1 1 1 (fun _ => fun _ _ _ => (1 : ℚ) / 2) 0 1
              (fun _ => 0) (fun _ => 1) (fun X => X) 2).1 0 2
            (fun _ => 0) (fun _ => 1) (fun X => X) 3).2.2 =
          (@gen_candidates_torch 1 1 1 (fun _ => fun _ _ _ => (1 : ℚ) / 2) 0 1
            (fun _ => 0) (fun _ => 1) (fun X => X) 2).2.2) :=
  ⟨Nat.one_ne_zero,
    gen_candidates_torch_frame (fun _ => fun _ _ _ => (1 : ℚ) / 2) 0 1 2
      (fun _ => 0) (fun _ => 1) (fun X => X) (fun X => X) 2 3 Nat.one_ne_zero⟩

/- ------------------------------------------------------------------ -/
/- Analytic facts about the normal density and distribution            -/
/- ------------------------------------------------------------------ -/

theorem normalPdf_pos (z : ℝ) : 0 < normalPdf z := by
  unfold normalPdf
  have h1 : 0 < Real.sqrt (2 * Real.pi) := Real.sqrt_pos.mpr (by positivity)
  positivity

theorem normalPdf_eq2 (t : ℝ) :
    normalPdf t = (Real.sqrt (2 * Real.pi))⁻¹ * Real.exp (-(1 / 2 : ℝ) * t ^ 2) := by
  unfold normalPdf
  rw [show -t ^ 2 / 2 = -(1 / 2 : ℝ) * t ^ 2 by ring]

theorem integrable_normalPdf : Integrable normalPdf := by
  have h := (integrable_exp_neg_mul_sq (show (0 : ℝ) < 1 / 2 by norm_num)).const_mul
    (Real.sqrt (2 * Real.pi))⁻¹
  have heq : (fun t : ℝ => (Real.sqrt (2 * Real.pi))⁻¹ * Real.exp (-(1 / 2 : ℝ) * t ^ 2)) =
      normalPdf := by
    funext t
    rw [normalPdf_eq2]
  rwa [heq] at h

theorem integrable_mul_normalPdf : Integrable (fun t : ℝ => t * normalPdf t) := by
  have h := (integrable_mul_exp_neg_mul_sq (show (0 : ℝ) < 1 / 2 by norm_num)).const_mul
    (Real.sqrt (2 * Real.pi))⁻¹
  have heq : (fun t : ℝ =>
      (Real.sqrt (2 * Real.pi))⁻¹ * (t * Real.exp (-(1 / 2 : ℝ) * t ^ 2))) =
      fun t : ℝ => t * normalPdf t := by
    funext t
    rw [normalPdf_eq2]
    ring
  rwa [heq] at h

theorem normalCdf_nonneg (z : ℝ) : 0 ≤ normalCdf z :=
  setIntegral_nonneg measurableSet_Iic (fun t _ => (normalPdf_pos t).le)

theorem normalCdf_pos (z : ℝ) : 0 < normalCdf z := by
  have hnn : 0 ≤ᵐ[volume.restrict (Iic z)] normalPdf :=
    Filter.Eventually.of_forall (fun t => (normalPdf_pos t).le)
  have hint : IntegrableOn normalPdf (Iic z) := integrable_normalPdf.integrableOn
  unfold normalCdf
  rw [setIntegral_pos_iff_support_of_nonneg_ae hnn hint]
  have hsupp : Function.support normalPdf = Set.univ :=
    Set.eq_univ_of_forall (fun t => ne_of_gt (normalPdf_pos t))
  rw [hsupp, Set.univ_inter, Real.volume_Iic]
  exact ENNReal.zero_lt_top

theorem hasDerivAt_neg_normalPdf (x : ℝ) :
    HasDerivAt (fun t => -normalPdf t) (x * normalPdf x) x := by
  have h1 : HasDerivAt (fun t : ℝ => -t ^ 2 / 2) (-x) x := by
    have h0 := ((hasDerivAt_pow 2 x).neg).div_const 2
    convert h0 using 1
    push_cast
    ring
  have h2 : HasDerivAt (fun t : ℝ => Real.exp (-t ^ 2 / 2))
      (Real.exp (-x ^ 2 / 2) * (-x)) x := h1.exp
  have h3 := (h2.const_mul (Real.sqrt (2 * Real.pi))⁻¹).neg
  convert h3 using 1
  unfold normalPdf
  ring

theorem tendsto_normalPdf_atBot : Tendsto (fun t : ℝ => normalPdf t) atBot (𝓝 0) := by
  have hsq : Tendsto (fun t : ℝ => t ^ 2) atBot atTop := by
    have h1 : Tendsto (fun t : ℝ => (-t) ^ 2) atBot atTop :=
      (tendsto_pow_atTop two_ne_zero).comp tendsto_neg_atBot_atTop
    simpa [neg_sq] using h1
  have harg : Tendsto (fun t : ℝ => -t ^ 2 / 2) atBot atBot := by
    have h2 : Tendsto (fun t : ℝ => t ^ 2 / 2) atBot atTop :=
      hsq.atTop_div_const (by norm_num)
    have h3 : Tendsto (fun t : ℝ => -(t ^ 2 / 2)) atBot atBot :=
      tendsto_neg_atTop_atBot.comp h2
    simpa [neg_div] using h3
  have hexp : Tendsto (fun t : ℝ => Real.exp (-t ^ 2 / 2)) atBot (𝓝 0) :=
    Real.tendsto_exp_atBot.comp harg
  have h4 := hexp.const_mul (Real.sqrt (2 * Real.pi))⁻¹
  simpa [normalPdf] using h4

theorem integral_Iic_mul_normalPdf (z : ℝ) :
    ∫ t in Iic z, t * normalPdf t = -normalPdf z := by
  have hderiv : ∀ x ∈ Iic z, HasDerivAt (fun t => -normalPdf t) (x * normalPdf x) x :=
    fun x _ => hasDerivAt_neg_normalPdf x
  have hint : IntegrableOn (fun t : ℝ => t * normalPdf t) (Iic z) :=
    integrable_mul_normalPdf.integrableOn
  have htend : Tendsto (fun t : ℝ => -normalPdf t) atBot (𝓝 0) := by
    simpa using tendsto_normalPdf_atBot.neg
  have h := integral_Iic_of_hasDerivAt_of_tendsto' hderiv hint htend
  simpa using h

theorem normalCdf_lt_of_neg (z : ℝ) (hz : z < 0) :
    normalCdf z < normalPdf z / (-z) := by
  have hzne : z ≠ 0 := ne_of_lt hz
  have hint : IntegrableOn (fun t : ℝ => (t / z - 1) * normalPdf t) (Iic z) := by
    have h1 : Integrable (fun t : ℝ => (1 / z) * (t * normalPdf t)) :=
      integrable_mul_normalPdf.const_mul (1 / z)
    have h2 : Integrable (fun t : ℝ => (1 / z) * (t * normalPdf t) - normalPdf t) :=
      h1.sub integrable_normalPdf
    have heq : (fun t : ℝ => (1 / z) * (t * normalPdf t) - normalPdf t) =
        fun t : ℝ => (t / z - 1) * normalPdf t := by
      funext t
      ring
    rw [heq] at h2
    exact h2.integrableOn
  have hkey : 0 < ∫ t in Iic z, (t / z - 1) * normalPdf t := by
    have hnn : 0 ≤ᵐ[volume.restrict (Iic z)]
        fun t : ℝ => (t / z - 1) * normalPdf t := by
      filter_upwards [ae_restrict_mem measurableSet_Iic] with t ht
      have h1 : 1 ≤ t / z := by
        rw [le_div_iff_of_neg hz]
        simpa using ht
      exact mul_nonneg (by linarith) (normalPdf_pos t).le
    rw [setIntegral_pos_iff_support_of_nonneg_ae hnn hint]
    have hsub : Iio z ⊆
        Function.support (fun t : ℝ => (t / z - 1) * normalPdf t) ∩ Iic z := by
      intro t ht
      refine ⟨?_, mem_Iic.mpr (le_of_lt (mem_Iio.mp ht))⟩
      have h1 : 1 < t / z := by
        rw [lt_div_iff_of_neg hz]
        simpa using ht
      exact mul_ne_zero (ne_of_gt (by linarith)) (ne_of_gt (normalPdf_pos t))
    refine lt_of_lt_of_le ?_ (measure_mono hsub)
    rw [Real.volume_Iio]
    exact ENNReal.zero_lt_top
  have hsplit : ∫ t in Iic z, (t / z - 1) * normalPdf t =
      (1 / z) * (∫ t in Iic z, t * normalPdf t) - normalCdf z := by
    rw [show (fun t : ℝ => (t / z - 1) * normalPdf t) =
        fun t : ℝ => (1 / z) * (t * normalPdf t) - normalPdf t from
      funext (fun t => by ring)]
    rw [integral_sub ((integrable_mul_normalPdf.const_mul (1 / z)).integrableOn)
      integrable_normalPdf.integrableOn]
    rw [integral_mul_left]
    rfl
  rw [hsplit, integral_Iic_mul_normalPdf] at hkey
  have heq2 : (1 / z) * (-normalPdf z) = normalPdf z / (-z) := by
    rw [div_neg]
    ring
  linarith

theorem normalPdf_add_mul_cdf_pos (z : ℝ) : 0 < normalPdf z + z * normalCdf z := by
  rcases le_or_lt 0 z with hz | hz
  · have h1 := mul_nonneg hz (normalCdf_nonneg z)
    linarith [normalPdf_pos z]
  · have hmill := normalCdf_lt_of_neg z hz
    have h1 : z * (normalPdf z / (-z)) < z * normalCdf z :=
      mul_lt_mul_of_neg_left hmill hz
    have h2 : z * (normalPdf z / (-z)) = -normalPdf z := by
      rw [div_neg, mul_neg, mul_div_cancel₀]
      exact ne_of_lt hz
    linarith

/- ------------------------------------------------------------------ -/
/- C2: the analytic EI formula and the zero-variance clamp             -/
/- ------------------------------------------------------------------ -/

/-- C2: for every input with univariate Gaussian posterior (μ, σ) with σ ≠ 0
and every best_f, Analytic EI equals σ·φ(z) + (μ − best_f)·Φ(z) with
z = (μ − best_f)/σ; and when σ is zero it is the total value 0 — never an
error. -/
theorem ExpectedImprovement_eq_formula (μ σ best_f : ℝ) (hσ : σ ≠ 0) :
    ExpectedImprovement μ σ best_f =
        σ * normalPdf ((μ - best_f) / σ) +
          (μ - best_f) * normalCdf ((μ - best_f) / σ) ∧
      ExpectedImprovement μ 0 best_f = 0 := by
  constructor
  · unfold ExpectedImprovement
    rw [if_neg hσ]
  · simp [ExpectedImprovement]

/-- Witness for C2 at μ = 1, σ = 1, best_f = 0. -/
theorem ExpectedImprovement_eq_formula_witness :
    (1 : ℝ) ≠ 0 ∧
      (ExpectedImprovement 1 1 0 =
          1 * normalPdf ((1 - 0) / 1) + (1 - 0) * normalCdf ((1 - 0) / 1) ∧
        ExpectedImprovement 1 0 0 = 0) :=
  ⟨one_ne_zero, ExpectedImprovement_eq_formula 1 1 0 one_ne_zero⟩

/- ------------------------------------------------------------------ -/
/- C3: nonnegativity of analytic EI and its zero set                   -/
/- ------------------------------------------------------------------ -/

/-- C3 (amended): Analytic EI is nonnegative for every input with σ ≥ 0, and
equals zero exactly when the predictive standard deviation is zero — the
σ = 0 clamp returns zero whatever the mean, and for σ > 0 the utility is
strictly positive. -/
theorem ExpectedImprovement_nonneg_iff_zero (μ σ best_f : ℝ) (hσ : 0 ≤ σ) :
    0 ≤ ExpectedImprovement μ σ best_f ∧
      (ExpectedImprovement μ σ best_f = 0 ↔ σ = 0) := by
  rcases eq_or_lt_of_le hσ with h0 | hpos
  · rw [← h0]
    simp [ExpectedImprovement]
  · have hne : σ ≠ 0 := ne_of_gt hpos
    have hei : ExpectedImprovement μ σ best_f =
        σ * (normalPdf ((μ - best_f) / σ) +
          ((μ - best_f) / σ) * normalCdf ((μ - best_f) / σ)) := by
      unfold ExpectedImprovement
      rw [if_neg hne]
      set z := (μ - best_f) / σ with hz
      have hmean : μ - best_f = z * σ := by
        rw [hz]
        field_simp
      rw [hmean]
      ring
    have hpos2 : 0 < ExpectedImprovement μ σ best_f := by
      rw [hei]
      exact mul_pos hpos (normalPdf_add_mul_cdf_pos ((μ - best_f) / σ))
    refine ⟨hpos2.le, ?_, ?_⟩
    · intro h
      exact absurd h (ne_of_gt hpos2)
    · intro h
      exact absurd h hne

/-- Counterexample to C3 as stated: at μ = 1, σ = 0, best_f = 0 the analytic
EI equals 0 although the predictive mean 1 exceeds best_f = 0, so EI = 0 does
not force the conjunction (σ = 0 and μ ≤ best_f) claimed by the
specification. -/
theorem ExpectedImprovement_zero_without_mean_le :
    ExpectedImprovement 1 0 0 = 0 ∧ ¬ ((0 : ℝ) = 0 ∧ (1 : ℝ) ≤ 0) := by
  constructor
  · simp [ExpectedImprovement]
  · rintro ⟨-, h⟩
    norm_num at h

/-- Witness for the amended C3 at μ = 0, σ = 1, best_f = 0. -/
theorem ExpectedImprovement_nonneg_iff_zero_witness :
    (0 : ℝ) ≤ 1 ∧
      (0 ≤ ExpectedImprovement 0 1 0 ∧
        (ExpectedImprovement 0 1 0 = 0 ↔ (1 : ℝ) = 0)) :=
  ⟨zero_le_one, ExpectedImprovement_nonneg_iff_zero 0 1 0 zero_le_one⟩
